import Mathlib

/-!
Verification development for the icepool/hdroller probability core.

The Python source is shallowly embedded: dice, pools and decks become
structures over association lists of (outcome, weight) pairs with integer
outcomes and natural-number weights; fallible constructors return `Except`;
iteration over branch generators becomes explicit list construction.
Outcome-to-weight dictionaries (`defaultdict(int)` in the source) are
modelled as association lists in first-insertion order via `dataAdd`.
-/

namespace IcepoolSpec

/-- `defaultdict(int)` update `data[k] += v`: if the key is present its value
is increased in place, otherwise the key is appended (insertion order). -/
def dataAdd {κ : Type} [DecidableEq κ] (d : List (κ × Nat)) (k : κ) (v : Nat) :
    List (κ × Nat) :=
  if d.any (fun p => decide (p.1 = k)) then
    d.map (fun p => if p.1 = k then (p.1, p.2 + v) else p)
  else d ++ [(k, v)]

/-- `bisect.bisect_left(l, x)` on a sorted list: the number of elements `< x`. -/
def bisectLeft (l : List Int) (x : Int) : Nat := l.countP (fun y => decide (y < x))

/-- `bisect.bisect_right(l, x)` on a sorted list: the number of elements `≤ x`. -/
def bisectRight (l : List Int) (x : Int) : Nat := l.countP (fun y => decide (y ≤ x))

/-- Python `sorted` on (key, value) pairs, comparing tuples lexicographically. -/
def pairLe (p q : Int × Nat) : Prop := p.1 < q.1 ∨ (p.1 = q.1 ∧ p.2 ≤ q.2)

instance : DecidableRel pairLe := fun p q => by unfold pairLe; infer_instance

/-- Python `sorted(data.items())` (stable; comparison is lexicographic on pairs). -/
def sortPairs (l : List (Int × Nat)) : List (Int × Nat) := List.insertionSort pairLe l

/-- Python `sorted` on a list of integers. -/
def sortInts (l : List Int) : List Int := List.insertionSort (fun a b : Int => a ≤ b) l

/-- `math.lcm(*l)`; the lcm of no arguments is 1. -/
def listLcm (l : List Nat) : Nat := l.foldr Nat.lcm 1

/-- `math.gcd(*l)`; the gcd of no arguments is 0. -/
def listGcd (l : List Nat) : Nat := l.foldr Nat.gcd 0

/-! ## hdroller dice (src/hdroller/dice/base.py)

A die is its sorted outcome→weight mapping `_data` (keys strictly increasing).
`ndim` is not modelled: all outcomes here are scalars, so `ndim` is the
constant `'scalar'` and contributes nothing to equality or hashing. -/

structure HDie where
  data : List (Int × Nat)
deriving DecidableEq, Repr

namespace HDie

/-- `total_weight()`: the sum of all weights. -/
def totalWeight (d : HDie) : Nat := (d.data.map Prod.snd).sum

/-- `max_outcome()`: the last (largest) outcome. Defaults to 0 on an empty die,
where the source would raise. -/
def maxOutcome (d : HDie) : Int := ((d.data.getLast?).map Prod.fst).getD 0

/-- `min_outcome()`: the first (smallest) outcome. Defaults to 0 on an empty die. -/
def minOutcome (d : HDie) : Int := ((d.data.head?).map Prod.fst).getD 0

/-- `pop_max()` as used by `DicePool._iter_pop_max`: the die with its last
outcome removed, the removed outcome, and the removed weight. (The pool code
tests `len(popped_die) == 0` and builds pools from the popped die, so the
popped result is a die value, possibly with no outcomes.) -/
def popMax (d : HDie) : HDie × Int × Nat :=
  (⟨d.data.dropLast⟩, d.maxOutcome, ((d.data.getLast?).map Prod.snd).getD 0)

/-- `cweights()`: `itertools.accumulate(self.weights())`, the running prefix
sums `[w0, w0+w1, ...]`. -/
def cweights (d : HDie) : List Nat := ((d.data.map Prod.snd).scanl (· + ·) 0).tail

/-- `weight_le(outcome)`: `index = bisect_right(outcomes, outcome)`; the total
weight if `index >= len(self)`, else `cweights[index]`. -/
def weightLe (d : HDie) (o : Int) : Nat :=
  let index := bisectRight (d.data.map Prod.fst) o
  if d.data.length ≤ index then d.totalWeight
  else (d.cweights).getD index 0

end HDie

/-! ## hdroller pools (src/hdroller/pool.py) -/

structure DicePool where
  die : HDie
  countDice : List Int
  minOutcomes : Option (List Int)
  maxOutcomes : Option (List Int)
deriving DecidableEq, Repr

namespace DicePool

/-- `num_dice()`: the length of `count_dice`. -/
def numDice (p : DicePool) : Nat := p.countDice.length

/-- `max_outcomes(always_tuple=True)`: the per-die max-outcome caps, defaulting
to the die's max outcome for every die when no caps are set. -/
def maxOutcomesAT (p : DicePool) : List Int :=
  p.maxOutcomes.getD (List.replicate p.numDice p.die.maxOutcome)

end DicePool

/-- The min/max-outcome standard-form step of the `Pool()` factory: with no
dice both become `None`; otherwise each cap list is clamped to the die's range
on its side and sorted, or dropped entirely (`None`) when it has no effect. -/
def poolStandardForm (die : HDie) (numDice : Nat)
    (minOutcomes maxOutcomes : Option (List Int)) :
    Option (List Int) × Option (List Int) :=
  if numDice = 0 then (none, none)
  else
    (match minOutcomes with
      | none => none
      | some l =>
        if die.minOutcome < (l.max?).getD 0 then
          some (sortInts (l.map (fun o => max o die.minOutcome)))
        else none,
     match maxOutcomes with
      | none => none
      | some l =>
        if (l.min?).getD 0 < die.maxOutcome then
          some (sortInts (l.map (fun o => min o die.maxOutcome)))
        else none)

/-- The pool value the `Pool()` factory produces once its argument checks have
passed: `count_dice` already in tuple form, caps in standard form. -/
def poolBuild (die : HDie) (countDice : List Int)
    (minOutcomes maxOutcomes : Option (List Int)) : DicePool :=
  ⟨die, countDice,
    (poolStandardForm die countDice.length minOutcomes maxOutcomes).1,
    (poolStandardForm die countDice.length minOutcomes maxOutcomes).2⟩

/-- One step of the factory's `num_dice` resolution loop: a sequence argument
must agree with any previously determined number of dice. -/
def resolveStep (numDice : Option Nat) (len : Option Nat) : Except String (Option Nat) :=
  match len with
  | none => .ok numDice
  | some n =>
    match numDice with
    | some m => if m ≠ n then .error "Conflicting values for the number of dice." else .ok (some n)
    | none => .ok (some n)

/-- The factory's `num_dice` resolution loop over the three sequence-or-`None`
arguments (`count_dice`, `min_outcomes`, `max_outcomes`, in that order). -/
def resolveNumDice (numDice : Option Nat)
    (countDice minOutcomes maxOutcomes : Option (List Int)) :
    Except String (Option Nat) := do
  let nd1 ← resolveStep numDice (countDice.map List.length)
  let nd2 ← resolveStep nd1 (minOutcomes.map List.length)
  resolveStep nd2 (maxOutcomes.map List.length)

/-- The `Pool()` factory function. `count_dice` is modelled in its sequence
form (the `int` and `slice` forms only expand to such a sequence via
`_compute_count_dice` and do not participate in `num_dice` resolution, since
they have no `__len__`). -/
def PoolFactory (die : HDie) (numDice : Option Nat)
    (countDice minOutcomes maxOutcomes : Option (List Int)) :
    Except String DicePool := do
  let nd ← resolveNumDice numDice countDice minOutcomes maxOutcomes
  let n := nd.getD 0
  let cd := countDice.getD (List.replicate n (1 : Int))
  let (m1, m2) := poolStandardForm die n minOutcomes maxOutcomes
  if m1.isSome && m2.isSome then
    .error "A pool cannot limit both min_outcomes and max_outcomes."
  else
    .ok ⟨die, cd, m1, m2⟩

/-- Modelled from the spec: `hdroller.math.comb_row(n, weight)` (module not
under src/), the "cached row-of-Pascal's-triangle helper" of §4.2; entry `k`
is `binomial(n, k) * weight ** k`. The call site passes only the single
outcome's weight, so no other factor can appear in the row. -/
def combRow (n : Nat) (weight : Nat) : List Nat :=
  (List.range (n + 1)).map (fun k => n.choose k * weight ^ k)

/-- `num_possible_dice` of `_iter_pop_max`: the sorted positions whose max
cap is not strictly below the die's max outcome. -/
def numPossibleDice (p : DicePool) : Nat :=
  p.numDice - bisectLeft p.maxOutcomesAT p.die.maxOutcome

/-- The enumeration loop at the end of `_iter_pop_max`: one iteration per
entry of `comb_row[1:]`, accumulating the top count-selector value and
shrinking `count_dice`/`max_outcomes` from the high end. -/
def iterPopLoop (poppedDie : HDie) :
    List Nat → Int → List Int → List Int → List (Option DicePool × Int × Nat)
  | [], _, _, _ => []
  | w :: ws, count, cd, maxs =>
    let count' := count + cd.getLastD 0
    let maxs' := maxs.dropLast
    let cd' := cd.dropLast
    (some (poolBuild poppedDie cd' none (some maxs')), count', w) ::
      iterPopLoop poppedDie ws count' cd' maxs'

/-- `DicePool._iter_pop_max` / `pop_max()`: all (pool, count, weight) branches
for removing the max outcome. `poppedDie` and `singleWeight` are the first and
third components of `self.die().pop_max()`, written out so that they reduce. -/
def DicePool.iterPopMax (p : DicePool) : List (Option DicePool × Int × Nat) :=
  let maxOutcomes := p.maxOutcomesAT
  let remainingCount : Int := p.countDice.sum
  let npd := numPossibleDice p
  let numUnusedDice := p.numDice - npd
  let poppedDie : HDie := ⟨p.die.data.dropLast⟩
  let singleWeight : Nat := ((p.die.data.getLast?).map Prod.snd).getD 0
  if poppedDie.data.length = 0 then
    -- Last outcome: all possible dice must roll it.
    [(none, remainingCount, singleWeight ^ npd)]
  else if poppedDie.totalWeight = 0 then
    -- Last outcome with positive weight: all possible dice must roll it.
    [(some (poolBuild poppedDie [] none (some [])), remainingCount, singleWeight ^ npd)]
  else if p.countDice.all (fun c => decide (c = 0)) then
    -- No selected dice remain: empty all dice in one go.
    [(some (poolBuild poppedDie [] none (some [])), 0,
      (maxOutcomes.map (fun c => p.die.weightLe c)).prod)]
  else
    let poppedMaxOutcomes :=
      maxOutcomes.take numUnusedDice ++ List.replicate npd poppedDie.maxOutcome
    let poppedCountDice := p.countDice
    (some (poolBuild poppedDie poppedCountDice none (some poppedMaxOutcomes)), 0, 1) ::
      (if 0 < singleWeight then
        iterPopLoop poppedDie ((combRow npd singleWeight).drop 1) 0
          poppedCountDice poppedMaxOutcomes
      else [])

/-- The denominator the remaining pool (a pop branch) still has to spread over
its dice: each of its positions ranges over its whole remaining die. Used to
state per-step weight conservation; an exhausted branch (`None`) contributes 1. -/
def residualDenom : Option DicePool → Nat
  | none => 1
  | some q => q.die.totalWeight ^ q.numDice

/-- Proof device: the weighted sum produced by the enumeration loop of
`_iter_pop_max`, with one factor of the remaining total weight per die still
in the branch pool (`e` counts the dice before the first loop iteration). -/
def sumAux (r : Nat) : List Nat → Nat → Nat
  | [], _ => 0
  | w :: t, e => w * r ^ (e - 1) + sumAux r t (e - 1)

/-! ## hdroller pool evaluators (src/hdroller/eval_pool.py)

An evaluator is its pure method set; the per-instance memoization cache of
`_eval_internal` is keyed by `(state, pools)` under structural equality, so it
is semantically transparent and the recursion is embedded as a pure function.
Python recursion needs no fuel (each level removes one die outcome); here the
fuel is set to exactly that depth, the length of the pool die's data. -/

structure EvalPool (S : Type) where
  initial_state : DicePool → S
  next_state : S → Int → Option Int → S
  reroll_state : S → Int → Option Int → Bool
  final_outcome : S → DicePool → Int

/-- `EvalPool._iter_pool(outcome, pool)` for a live pool: the branch list,
with `None` count when the outcome is not in the pool's die. -/
def iterPool (outcome : Int) (pool : DicePool) :
    List (Option DicePool × Option Int × Nat) :=
  if pool.die.data.any (fun pr => decide (pr.1 = outcome)) then
    pool.iterPopMax.map (fun b => (b.1, some b.2.1, b.2.2))
  else [(some pool, none, 1)]

/-- `EvalPool._eval_internal`, specialized to one pool: the distribution over
states as a `{state: weight}` dictionary in insertion order. -/
def evalInternal {S : Type} [DecidableEq S] (ev : EvalPool S) (initialState : S) :
    Nat → Option DicePool → List (S × Nat)
  | _, none => [(initialState, 1)]
  | 0, some _ => []
  | fuel + 1, some pool =>
    let outcome := pool.die.maxOutcome
    (iterPool outcome pool).foldl (fun result b =>
      (evalInternal ev initialState fuel b.1).foldl (fun result sw =>
        if ev.reroll_state sw.1 outcome b.2.1 then result
        else dataAdd result (ev.next_state sw.1 outcome b.2.1) (sw.2 * b.2.2))
        result) []

/-- `EvalPool.eval`, specialized to one pool, up to the final `Die(final_dist)`
construction: the final outcome→weight dictionary from which the result die is
built. -/
def EvalPool.eval {S : Type} [DecidableEq S] (ev : EvalPool S) (p : DicePool) :
    List (Int × Nat) :=
  let dist := evalInternal ev (ev.initial_state p) p.die.data.length (some p)
  dist.foldl (fun finalDist sw => dataAdd finalDist (ev.final_outcome sw.1 p) sw.2) []

/-- `DicePool._key_tuple`: `(die.key_tuple(), count_dice, min_outcomes,
max_outcomes)`, where `die.key_tuple()` is `(ndim, items)` and `ndim` is the
constant scalar tag, leaving the die's data. `__eq__` and `__hash__` compare
pools by this tuple. -/
def DicePool.keyTuple (p : DicePool) :
    List (Int × Nat) × List Int × Option (List Int) × Option (List Int) :=
  (p.die.data, p.countDice, p.minOutcomes, p.maxOutcomes)

/-- `SumPool` (src/hdroller/eval_pool.py): start at 0, add `outcome * count`.
(Its Python `next_state` would fail on a `None` count; with a single pool a
`None` count never reaches it, and it is totalized here with 0.) -/
def sumPoolModel : EvalPool Int where
  initial_state := fun _ => 0
  next_state := fun prevState outcome count => prevState + outcome * count.getD 0
  reroll_state := fun _ _ _ => false
  final_outcome := fun finalState _ => finalState

/-! ## icepool creation args (src/src/icepool/creation_args.py)

The four `merge_weights_*` denominator policies. Outcomes are scalars here;
`subdatas` are the already-expanded outcome→weight dictionaries and `weights`
the per-source multipliers (nonnegative by the guard at the top of each
function, hence `Nat`). -/

/-- `sum(subdata.values())`. -/
def subdataDenominator (s : List (Int × Nat)) : Nat := (s.map Prod.snd).sum

/-- The inner loop `for outcome, weight in subdata.items(): data[outcome] +=
weight * factor`. -/
def mergeInner (factor : Nat) : List (Int × Nat) → List (Int × Nat) → List (Int × Nat)
  | data, [] => data
  | data, p :: rest => mergeInner factor (dataAdd data p.1 (p.2 * factor)) rest

/-- The outer loop over `(subdata, factor)` pairs, accumulating into a
`defaultdict(int)`. -/
def mergeOuter : List (Int × Nat) → List (List (Int × Nat) × Nat) → List (Int × Nat)
  | data, [] => data
  | data, sf :: rest => mergeOuter (mergeInner sf.2 data sf.1) rest

/-- The shared shape of every `merge_weights_*` function: compute one factor
per `(denominator, weight)` pair (`zip` truncates to the shorter list, as in
Python) and accumulate `weight * factor` per outcome. -/
def mergeWith (denominatorProd : Nat) (subdatas : List (List (Int × Nat)))
    (weights : List Nat) : List (Int × Nat) :=
  let dens := subdatas.map subdataDenominator
  let factors := (dens.zip weights).map
    (fun dw => if dw.1 ≠ 0 then denominatorProd * dw.2 / dw.1 else 0)
  mergeOuter [] (subdatas.zip factors)

/-- `merge_weights_prod`: the common multiplier is the product of the positive
sub-denominators. -/
def merge_weights_prod (subdatas : List (List (Int × Nat))) (weights : List Nat) :
    List (Int × Nat) :=
  let dens := subdatas.map subdataDenominator
  mergeWith ((dens.filter (fun d => decide (0 < d))).prod) subdatas weights

/-- `merge_weights_lcm`: the common multiplier is the lcm of the positive
sub-denominators. -/
def merge_weights_lcm (subdatas : List (List (Int × Nat))) (weights : List Nat) :
    List (Int × Nat) :=
  let dens := subdatas.map subdataDenominator
  mergeWith (listLcm (dens.filter (fun d => decide (0 < d)))) subdatas weights

/-- `merge_weights_lcm_joint`: the common multiplier is the lcm of
`d // gcd(d, w)` over the positive sub-denominators paired with their weights. -/
def merge_weights_lcm_joint (subdatas : List (List (Int × Nat))) (weights : List Nat) :
    List (Int × Nat) :=
  let dens := subdatas.map subdataDenominator
  mergeWith
    (listLcm ((((dens.zip weights)).filter (fun dw => decide (0 < dw.1))).map
      (fun dw => dw.1 / Nat.gcd dw.1 dw.2)))
    subdatas weights

/-- The tail of `merge_weights_reduce`: divide all weights by their overall
gcd when that gcd exceeds 1. -/
def normalizeGcd (data : List (Int × Nat)) : List (Int × Nat) :=
  let g := listGcd (data.map Prod.snd)
  if 1 < g then data.map (fun p => (p.1, p.2 / g)) else data

/-- `merge_weights_reduce`: `merge_weights_lcm_joint` followed by dividing all
weights by their overall gcd. -/
def merge_weights_reduce (subdatas : List (List (Int × Nat))) (weights : List Nat) :
    List (Int × Nat) :=
  normalizeGcd (merge_weights_lcm_joint subdatas weights)

/-! ## icepool decks (src/src/icepool/deck.py and src/src/icepool/deck/deck.py)

Both files carry the same `_pop_min`/`_pop_max`/`hand_size` logic; the
embedding covers both. A deck is its card→dups mapping `_data` (sorted keys)
plus the hand size. -/

structure Deck where
  data : List (Int × Nat)
  hand_size : Nat
deriving DecidableEq, Repr

namespace Deck

/-- `deck_size()`: the total number of cards, i.e. the sum of all dups. -/
def deckSize (d : Deck) : Nat := (d.data.map Prod.snd).sum

/-- The largest card in the deck (default 0 on an empty deck). -/
def maxOutcome (d : Deck) : Int := ((d.data.getLast?).map Prod.fst).getD 0

/-- The smallest card in the deck (default 0 on an empty deck). -/
def minOutcome (d : Deck) : Int := ((d.data.head?).map Prod.fst).getD 0

end Deck

/-- Modelled from the spec: `expand_create_args` (icepool.deck_args /
icepool.deck.args, modules not under src/), restricted to scalar outcomes.
Per §4.1, construction "merges duplicate outcomes by weight addition" and
stores keys strictly increasing; this matches the in-src analogue
`creation_args.expand_args_for_deck`, where each scalar expands to `{o: 1}`,
`merge_dups` adds `1 * dup` per occurrence, and the items are sorted. -/
def expand_create_args (outcomes : List Int) (dups : List Nat) : List (Int × Nat) :=
  sortPairs ((outcomes.zip dups).foldl (fun data od => dataAdd data od.1 od.2) [])

/-- `Deck.__new__` (src/src/icepool/deck.py), sequence-of-scalars form: the
dict form only converts to the same outcome and dups lists. `dups` are `Int`
so the sign check is meaningful. -/
def mkDeck (outcomes : List Int) (dups : Option (List Int)) (handSize : Nat) :
    Except String Deck := do
  let dupsL ← match dups with
    | none => pure (List.replicate outcomes.length (1 : Int))
    | some l =>
      if l.length ≠ outcomes.length then
        Except.error "Length of dups must equal the number of outcomes."
      else pure l
  if dupsL.any (fun x => decide (x < 0)) then
    Except.error "dups cannot have negative values."
  else
    let deck : Deck := ⟨expand_create_args outcomes (dupsL.map Int.toNat), handSize⟩
    if deck.deckSize < deck.hand_size then
      Except.error "hand_size cannot exceed deck_size."
    else
      Except.ok deck

/-- `Deck._pop_max(max_outcome)`: the hypergeometric branch list. The branch
decks go through the constructor pipeline on the sliced outcome and dups
sequences; the constructor's own `hand_size` check holds on every feasible
branch (proved with claim C5). -/
def Deck.popMax (d : Deck) (maxOutcome : Int) : List (Deck × Nat × Nat) :=
  if d.data = [] ∨ maxOutcome ≠ d.maxOutcome then [(d, 0, 1)]
  else
    let deckCount := ((d.data.getLast?).map Prod.snd).getD 0
    let minCount := deckCount + d.hand_size - d.deckSize
    let maxCount := min deckCount d.hand_size
    (List.range' minCount (maxCount + 1 - minCount)).map (fun count =>
      (⟨expand_create_args ((d.data.map Prod.fst).dropLast)
          ((d.data.map Prod.snd).dropLast), d.hand_size - count⟩,
       count, Nat.choose deckCount count))

/-- `Deck._pop_min(min_outcome)`: as `_pop_max` but from the low end. -/
def Deck.popMin (d : Deck) (minOutcome : Int) : List (Deck × Nat × Nat) :=
  if d.data = [] ∨ minOutcome ≠ d.minOutcome then [(d, 0, 1)]
  else
    let deckCount := ((d.data.head?).map Prod.snd).getD 0
    let minCount := deckCount + d.hand_size - d.deckSize
    let maxCount := min deckCount d.hand_size
    (List.range' minCount (maxCount + 1 - minCount)).map (fun count =>
      (⟨expand_create_args ((d.data.map Prod.fst).drop 1)
          ((d.data.map Prod.snd).drop 1), d.hand_size - count⟩,
       count, Nat.choose deckCount count))

/-! ## icepool keep expressions (src/src/icepool/expression/keep.py)

`KeepExpression` wraps an inner `MultisetExpression`; the inner expression is
abstract here, represented by its `next_state` function over its own state
type. Python list slicing with possibly negative indices is modelled exactly. -/

/-- `l[i:]` for an arbitrary Python index `i`. -/
def pyDropFrom {α : Type} (l : List α) (i : Int) : List α :=
  if 0 ≤ i then l.drop i.toNat else l.drop ((l.length + i).toNat)

/-- `l[:i]` for an arbitrary Python index `i`. -/
def pyTakeTo {α : Type} (l : List α) (i : Int) : List α :=
  if 0 ≤ i then l.take i.toNat else l.take ((l.length + i).toNat)

inductive KOrder where
  | Ascending
  | Descending
deriving DecidableEq, Repr

/-- `KeepExpression.next_state`: thread the inner expression, reject negative
counts, and for positive counts consume the kept-slot budget from the end
selected by the order. The inner `next_state` is abstracted as `innerNext`. -/
def keepNextState {IS : Type} (sortedRollCounts : List Int) (order : KOrder)
    (innerNext : Option IS → Int → IS × Int)
    (state : Option (List Int × Option IS)) (outcome : Int) :
    Except String ((List Int × Option IS) × Int) :=
  let (remaining, innerState) := state.getD (sortedRollCounts, none)
  let (innerState', count) := innerNext innerState outcome
  if count < 0 then
    .error "KeepExpression is not compatible with incoming negative counts."
  else if 0 < count then
    match order with
    | .Ascending =>
      let count' := (pyTakeTo remaining count).sum
      let remaining' := pyDropFrom remaining count'
      .ok ((remaining', some innerState'), count')
    | .Descending =>
      let count' := (pyDropFrom remaining (-count)).sum
      let remaining' := pyTakeTo remaining (-count')
      .ok ((remaining', some innerState'), count')
  else .ok ((remaining, some innerState'), count)

/-- The `sorted_roll_counts` constructor argument: an `int`, a `slice` (start,
stop; a non-`None` step is rejected), or a sequence whose entries are ints or
the `Ellipsis` marker (`none`). -/
inductive SortedRollCountsArg where
  | int (n : Int)
  | slice (start stop step : Option Int)
  | seq (l : List (Option Int))
deriving DecidableEq, Repr

/-- The result of `KeepExpression.__new__` over an inner expression of type
`E`: either the inner expression returned unmodified, or a keep node holding
its computed order, its `sorted_roll_counts` tuple, and the inner expression. -/
inductive KeepNewResult (E : Type) where
  | innerUnchanged (inner : E)
  | keep (order : KOrder) (sortedRollCounts : List Int) (inner : E)
deriving DecidableEq, Repr

/-- `KeepExpression.__new__`: translate the argument into an order and a
kept-slot tuple, or return the inner expression as-is for the all-open slice. -/
def keepNew {E : Type} (inner : E) (sortedRollCounts : SortedRollCountsArg) :
    Except String (KeepNewResult E) :=
  match sortedRollCounts with
  | .int n =>
    if 0 ≤ n then
      .ok (.keep .Ascending (List.replicate (n - 1).toNat 0 ++ [1]) inner)
    else
      .ok (.keep .Descending ((1 : Int) :: List.replicate (-n - 1).toNat 0) inner)
  | .slice start stop step =>
    if step.isSome then .error "step is not supported."
    else
      match start, stop with
      | none, none => .ok (.innerUnchanged inner)
      | none, some stop =>
        if stop < 0 then .error "If only stop is provided, it must be non-negative."
        else .ok (.keep .Ascending (List.replicate stop.toNat 1) inner)
      | some start, none =>
        if 0 ≤ start then .error "If only start is provided, it must be negative."
        else .ok (.keep .Descending (List.replicate (-start).toNat 1) inner)
      | some start, some stop =>
        if 0 ≤ start ∧ 0 ≤ stop then
          .ok (.keep .Ascending
            (List.replicate start.toNat 0 ++ List.replicate stop.toNat 1) inner)
        else if start < 0 ∧ stop < 0 then
          .ok (.keep .Descending
            (List.replicate (-stop).toNat 0 ++ List.replicate (-start).toNat 1) inner)
        else
          .error "If both start and stop are provided, they must be both negative or both not negative."
  | .seq l =>
    match l.head? with
    | none => .error "IndexError"
    | some first =>
      if first.isNone then
        if (l.drop 1).any (fun x => x.isNone) then
          .error "If a sequence is provided, either the first or last element (but not both) must be an Ellipsis (...)"
        else .ok (.keep .Descending ((l.drop 1).map (fun x => x.getD 0)) inner)
      else if (l.getLast?.getD none).isNone then
        if l.dropLast.any (fun x => x.isNone) then
          .error "If a sequence is provided, either the first or last element (but not both) must be an Ellipsis (...)"
        else .ok (.keep .Ascending (l.dropLast.map (fun x => x.getD 0)) inner)
      else
        .error "If a sequence is provided, either the first or last element (but not both) must be an Ellipsis (...)"

/-! ## Theorems -/

/-- A standard d6 with unit weights, for concrete instances. -/
def d6 : HDie := ⟨[(1, 1), (2, 1), (3, 1), (4, 1), (5, 1), (6, 1)]⟩

/-! ### Dictionary-accumulation lemmas -/

theorem dataAdd_map_fst {κ : Type} [DecidableEq κ] (d : List (κ × Nat)) (k : κ) (v : Nat) :
    (dataAdd d k v).map Prod.fst =
      if d.any (fun p => decide (p.1 = k)) then d.map Prod.fst
      else d.map Prod.fst ++ [k] := by
  unfold dataAdd
  split
  · rw [List.map_map]
    apply List.map_congr_left
    intro p _
    by_cases hp : p.1 = k <;> simp [hp]
  · simp

theorem dataAdd_keys_nodup {κ : Type} [DecidableEq κ] (d : List (κ × Nat)) (k : κ) (v : Nat)
    (h : (d.map Prod.fst).Nodup) : ((dataAdd d k v).map Prod.fst).Nodup := by
  rw [dataAdd_map_fst]
  split
  · exact h
  · next hany =>
    rw [List.nodup_append]
    refine ⟨h, List.nodup_singleton k, ?_⟩
    intro a ha hb
    rw [List.mem_singleton] at hb
    subst hb
    rw [List.mem_map] at ha
    obtain ⟨p, hp, hpk⟩ := ha
    exact hany (List.any_eq_true.mpr ⟨p, hp, by simp [hpk]⟩)

theorem dataAdd_snd_sum {κ : Type} [DecidableEq κ] (d : List (κ × Nat)) (k : κ) (v : Nat)
    (h : (d.map Prod.fst).Nodup) :
    ((dataAdd d k v).map Prod.snd).sum = (d.map Prod.snd).sum + v := by
  induction d with
  | nil => simp [dataAdd]
  | cons p d ih =>
    rw [List.map_cons, List.nodup_cons] at h
    obtain ⟨hpk, hd⟩ := h
    by_cases hp : p.1 = k
    · have hany : (p :: d).any (fun q => decide (q.1 = k)) = true := by
        simp [hp]
      unfold dataAdd
      rw [if_pos hany]
      have hmap : d.map (fun q => if q.1 = k then (q.1, q.2 + v) else q) = d := by
        have h1 : d.map (fun q => if q.1 = k then (q.1, q.2 + v) else q) = d.map id :=
          List.map_congr_left (fun q hq => by
            have hqk : q.1 ≠ k := fun hqk =>
              hpk (by rw [hp, ← hqk]; exact List.mem_map.mpr ⟨q, hq, rfl⟩)
            simp [hqk])
        rw [h1, List.map_id]
      simp only [List.map_cons, if_pos hp, hmap, List.map_cons]
      simp [Nat.add_assoc, Nat.add_comm v]
    · have hstep : dataAdd (p :: d) k v = p :: dataAdd d k v := by
        unfold dataAdd
        by_cases hany : d.any (fun q => decide (q.1 = k)) = true
        · rw [if_pos (by simp [hany]), if_pos hany]
          simp [hp]
        · rw [if_neg (by simp [hp, hany]), if_neg hany]
          rfl
      rw [hstep, List.map_cons, List.sum_cons, ih hd, List.map_cons, List.sum_cons,
        Nat.add_assoc]

theorem foldl_dataAdd_snd_sum {κ : Type} [DecidableEq κ] (pairs : List (κ × Nat)) :
    ∀ (acc : List (κ × Nat)), (acc.map Prod.fst).Nodup →
      ((pairs.foldl (fun data od => dataAdd data od.1 od.2) acc).map Prod.snd).sum =
        (acc.map Prod.snd).sum + (pairs.map Prod.snd).sum := by
  induction pairs with
  | nil => intro acc _; simp
  | cons p rest ih =>
    intro acc hacc
    rw [List.foldl_cons, ih _ (dataAdd_keys_nodup acc p.1 p.2 hacc),
      dataAdd_snd_sum acc p.1 p.2 hacc, List.map_cons, List.sum_cons]
    ring

theorem sortPairs_snd_sum (l : List (Int × Nat)) :
    ((sortPairs l).map Prod.snd).sum = (l.map Prod.snd).sum :=
  ((List.perm_insertionSort pairLe l).map Prod.snd).sum_eq

/-- The total weight of an expanded deck mapping is the sum of the dups. -/
theorem expand_create_args_snd_sum (outcomes : List Int) (dups : List Nat)
    (h : dups.length = outcomes.length) :
    ((expand_create_args outcomes dups).map Prod.snd).sum = dups.sum := by
  unfold expand_create_args
  rw [sortPairs_snd_sum, foldl_dataAdd_snd_sum _ [] (by simp),
    List.map_snd_zip _ _ (le_of_eq h)]
  simp

/-- Accumulating pairwise-distinct keys into an empty dictionary keeps the
pairs as given. -/
theorem foldl_dataAdd_of_nodup {κ : Type} [DecidableEq κ] (pairs : List (κ × Nat)) :
    ∀ (acc : List (κ × Nat)), (pairs.map Prod.fst).Nodup →
      (∀ k ∈ pairs.map Prod.fst, k ∉ acc.map Prod.fst) →
      pairs.foldl (fun data od => dataAdd data od.1 od.2) acc = acc ++ pairs := by
  induction pairs with
  | nil => intro acc _ _; simp
  | cons p rest ih =>
    intro acc hnd hdis
    rw [List.map_cons, List.nodup_cons] at hnd
    have hnotin : ¬ acc.any (fun q => decide (q.1 = p.1)) = true := by
      intro hany
      rw [List.any_eq_true] at hany
      obtain ⟨q, hq, hqk⟩ := hany
      exact hdis p.1 (by simp) (List.mem_map.mpr ⟨q, hq, by simpa using hqk⟩)
    have hstep : dataAdd acc p.1 p.2 = acc ++ [(p.1, p.2)] := by
      unfold dataAdd
      rw [if_neg hnotin]
    rw [List.foldl_cons, hstep, ih _ hnd.2 ?_]
    · simp
    · intro k hk
      rw [List.map_append]
      intro hmem
      rw [List.mem_append] at hmem
      rcases hmem with hmem | hmem
      · exact hdis k (by simp [hk]) hmem
      · simp only [List.map_cons, List.map_nil, List.mem_singleton] at hmem
        subst hmem
        exact hnd.1 hk

/-- Claim C9: constructing a `KeepExpression` with a slice whose start and
stop are both `None` returns the inner expression itself unchanged — the
full-open keep slice is an identity operation on expressions. -/
theorem keep_full_slice_identity {E : Type} (inner : E) :
    keepNew inner (.slice none none none) = .ok (.innerUnchanged inner) := rfl

/-- Claim C6: a negative count delivered by the inner expression makes
`KeepExpression.next_state` fail with the fatal `RuntimeError`; a non-negative
incoming count never produces that failure. -/
theorem keep_negative_count_error {IS : Type} (sortedRollCounts : List Int)
    (order : KOrder) (innerNext : Option IS → Int → IS × Int)
    (state : Option (List Int × Option IS)) (outcome : Int)
    (innerState' : IS) (count : Int)
    (h : innerNext (state.getD (sortedRollCounts, none)).2 outcome = (innerState', count)) :
    (count < 0 →
      keepNextState sortedRollCounts order innerNext state outcome =
        .error "KeepExpression is not compatible with incoming negative counts.") ∧
    (0 ≤ count →
      ∃ out, keepNextState sortedRollCounts order innerNext state outcome = .ok out) := by
  unfold keepNextState
  rcases hd : state.getD (sortedRollCounts, none) with ⟨remaining, innerState⟩
  rw [hd] at h
  dsimp only at h ⊢
  rw [h]
  dsimp only
  constructor
  · intro hneg
    rw [if_pos hneg]
  · intro hpos
    rw [if_neg (by omega)]
    by_cases hc : 0 < count
    · rw [if_pos hc]
      cases order <;> exact ⟨_, rfl⟩
    · rw [if_neg hc]
      exact ⟨_, rfl⟩

/-- Witness for C6 at a concrete inner expression and input. -/
theorem keep_negative_count_error_witness :
    keepNextState [1] .Ascending (fun _ _ => ((), (-1 : Int))) (none : Option (List Int × Option Unit)) 0 =
      .error "KeepExpression is not compatible with incoming negative counts." ∧
    (∃ out, keepNextState [1] .Ascending (fun _ _ => ((), (1 : Int))) (none : Option (List Int × Option Unit)) 0 = .ok out) :=
  ⟨(keep_negative_count_error [1] .Ascending _ none 0 () (-1) rfl).1 (by decide),
   (keep_negative_count_error [1] .Ascending _ none 0 () 1 rfl).2 (by decide)⟩

/-- Claim C2, failing input: the keep budget `(0, 1)` (skip the lowest rank,
keep the next) in ascending order, with incoming count 1. The claim says one
budget slot is consumed, leaving `(1,)` and emitting `sum((0,)) = 0`; the code
reassigns `count` to the emitted sum before slicing the budget, so it removes
`0` slots and returns the budget unchanged — the kept slot is never reached. -/
theorem keep_budget_slip_eval :
    keepNextState [0, 1] .Ascending (fun _ _ => ((), (1 : Int)))
        (none : Option (List Int × Option Unit)) 5 =
      .ok (([0, 1], some ()), 0) := rfl

/-- Claim C10: popping a deck at an outcome that is not its current extreme
(or popping an outcome-less deck) yields the single branch
`(the deck unchanged, count 0, weight 1)`. -/
theorem deck_pop_non_extreme_identity (d : Deck) (o : Int) :
    ((d.data = [] ∨ o ≠ d.maxOutcome) → d.popMax o = [(d, 0, 1)]) ∧
    ((d.data = [] ∨ o ≠ d.minOutcome) → d.popMin o = [(d, 0, 1)]) := by
  constructor
  · intro h
    unfold Deck.popMax
    rw [if_pos h]
  · intro h
    unfold Deck.popMin
    rw [if_pos h]

/-- Witness for C10 on a concrete two-card deck and a non-extreme outcome. -/
theorem deck_pop_non_extreme_identity_witness :
    (Deck.popMax ⟨[(1, 1), (3, 2)], 1⟩ 2 = [(⟨[(1, 1), (3, 2)], 1⟩, 0, 1)]) ∧
    (Deck.popMin ⟨[(1, 1), (3, 2)], 1⟩ 2 = [(⟨[(1, 1), (3, 2)], 1⟩, 0, 1)]) :=
  ⟨(deck_pop_non_extreme_identity ⟨[(1, 1), (3, 2)], 1⟩ 2).1 (by decide),
   (deck_pop_non_extreme_identity ⟨[(1, 1), (3, 2)], 1⟩ 2).2 (by decide)⟩

/-! ### Pop-max conservation lemmas (claim C1) -/

theorem iterPopLoop_residual_sum (poppedDie : HDie) (ws : List Nat) :
    ∀ (count : Int) (cd maxs : List Int),
      ((iterPopLoop poppedDie ws count cd maxs).map
        (fun b => b.2.2 * residualDenom b.1)).sum =
        sumAux poppedDie.totalWeight ws cd.length := by
  induction ws with
  | nil => intro count cd maxs; rfl
  | cons w t ih =>
    intro count cd maxs
    show w * residualDenom (some (poolBuild poppedDie cd.dropLast none (some maxs.dropLast))) +
        ((iterPopLoop poppedDie t _ cd.dropLast maxs.dropLast).map
          (fun b => b.2.2 * residualDenom b.1)).sum =
      sumAux poppedDie.totalWeight (w :: t) cd.length
    rw [ih]
    have hres : residualDenom (some (poolBuild poppedDie cd.dropLast none (some maxs.dropLast))) =
        poppedDie.totalWeight ^ cd.dropLast.length := rfl
    rw [hres, List.length_dropLast]
    rfl

theorem sumAux_eq (r : Nat) (ws : List Nat) :
    ∀ e : Nat, sumAux r ws e =
      ∑ i ∈ Finset.range ws.length, ws.getD i 0 * r ^ (e - 1 - i) := by
  induction ws with
  | nil => intro e; simp [sumAux]
  | cons w t ih =>
    intro e
    show w * r ^ (e - 1) + sumAux r t (e - 1) = _
    rw [ih (e - 1), List.length_cons, Finset.sum_range_succ']
    have h0 : (w :: t).getD 0 0 * r ^ (e - 1 - 0) = w * r ^ (e - 1) := by
      simp
    rw [h0, Nat.add_comm (∑ i ∈ Finset.range t.length, _) _, Nat.add_left_cancel_iff]
    apply Finset.sum_congr rfl
    intro i _
    have h1 : (w :: t).getD (i + 1) 0 = t.getD i 0 := rfl
    have h2 : e - 1 - (i + 1) = e - 1 - 1 - i := by omega
    rw [h1, h2]

theorem combRow_drop_one (n s : Nat) :
    (combRow n s).drop 1 =
      (List.range n).map (fun j => n.choose (j + 1) * s ^ (j + 1)) := by
  unfold combRow
  rw [← List.map_drop, List.range_succ_eq_map]
  show (((List.range n).map Nat.succ).map fun k => n.choose k * s ^ k) = _
  rw [List.map_map]
  rfl

theorem sumAux_combRow (r s n : Nat) :
    r ^ n + sumAux r ((combRow n s).drop 1) n = (s + r) ^ n := by
  have hlen : ((combRow n s).drop 1).length = n := by
    rw [combRow_drop_one, List.length_map, List.length_range]
  rw [sumAux_eq, hlen, add_pow]
  rw [Finset.sum_range_succ']
  simp only [Nat.cast_id]
  have h0 : s ^ 0 * r ^ (n - 0) * (n.choose 0 : Nat) = r ^ n := by
    simp
  rw [h0, Nat.add_comm (∑ i ∈ Finset.range n, _) _, Nat.add_left_cancel_iff]
  apply Finset.sum_congr rfl
  intro i hi
  rw [Finset.mem_range] at hi
  have hget : ((combRow n s).drop 1).getD i 0 = n.choose (i + 1) * s ^ (i + 1) := by
    rw [combRow_drop_one, List.getD_eq_getElem _ _ (by simpa using hi),
      List.getElem_map, List.getElem_range]
  rw [hget]
  have h2 : n - 1 - i = n - (i + 1) := by omega
  rw [h2]
  ring

/-- Claim C1, counterexample: for the single-die pool over the die
`{1: 3, 2: 5}` (denominator 8, no caps, `num_possible_dice = 1`), one full
`pop_max` step yields branch weights 1 and 5, whose sum 6 is not the
denominator raised to `num_possible_dice`; the zero-count branch carries
weight 1 and defers the remaining mass to its capped sub-pool rather than
carrying `remaining_weight ^ num_possible_dice` itself. -/
theorem pool_pop_max_weight_sum_counterexample :
    ¬ (((poolBuild ⟨[(1, 3), (2, 5)]⟩ [1] none none).iterPopMax.map
        (fun b => b.2.2)).sum =
      (poolBuild ⟨[(1, 3), (2, 5)]⟩ [1] none none).die.totalWeight ^
        numPossibleDice (poolBuild ⟨[(1, 3), (2, 5)]⟩ [1] none none)) := by
  decide

/-- Claim C1, amended: for a pool without max-outcome caps over a die with
strictly positive weights, one full `pop_max` step conserves total mass once
each branch weight is multiplied by the branch pool's residual denominator
(the remaining die's total weight to the power of the branch's remaining
pool size; 1 for an exhausted branch): the weighted sum equals the die's
denominator raised to `num_possible_dice`. -/
theorem pool_pop_max_residual_conservation (p : DicePool)
    (hnone : p.maxOutcomes = none)
    (hne : p.die.data ≠ [])
    (hsort : (p.die.data.map Prod.fst).Pairwise (· < ·))
    (hpos : ∀ pr ∈ p.die.data, 0 < pr.2) :
    ((p.iterPopMax).map (fun b => b.2.2 * residualDenom b.1)).sum =
      p.die.totalWeight ^ numPossibleDice p := by
  have hAT : p.maxOutcomesAT = List.replicate p.countDice.length p.die.maxOutcome := by
    unfold DicePool.maxOutcomesAT DicePool.numDice
    rw [hnone]
    rfl
  have hnpd : numPossibleDice p = p.countDice.length := by
    unfold numPossibleDice bisectLeft
    rw [hAT]
    have h0 : List.countP (fun y => decide (y < p.die.maxOutcome))
        (List.replicate p.countDice.length p.die.maxOutcome) = 0 := by
      rw [List.countP_eq_zero]
      intro a ha
      rw [List.eq_of_mem_replicate ha]
      simp
    rw [h0]
    unfold DicePool.numDice
    omega
  have hlastq : p.die.data.getLast? = some (p.die.data.getLast hne) :=
    List.getLast?_eq_getLast _ hne
  have hs : ((p.die.data.getLast?).map Prod.snd).getD 0 = (p.die.data.getLast hne).2 := by
    rw [hlastq]
    rfl
  have hdecomp : p.die.data.dropLast ++ [p.die.data.getLast hne] = p.die.data :=
    List.dropLast_append_getLast hne
  have htotal : p.die.totalWeight =
      ((p.die.data.dropLast).map Prod.snd).sum + (p.die.data.getLast hne).2 := by
    unfold HDie.totalWeight
    conv_lhs => rw [← hdecomp]
    rw [List.map_append, List.sum_append]
    simp
  simp only [DicePool.iterPopMax]
  by_cases hA : p.die.data.dropLast.length = 0
  · rw [if_pos hA]
    have h1 : p.die.data.length = 1 := by
      have h2 := List.length_dropLast p.die.data
      have h3 : 0 < p.die.data.length := List.length_pos.mpr hne
      omega
    obtain ⟨a, ha⟩ := List.length_eq_one.mp h1
    have hsa : ((p.die.data.getLast?).map Prod.snd).getD 0 = a.2 := by
      rw [ha]
      rfl
    have hta : p.die.totalWeight = a.2 := by
      unfold HDie.totalWeight
      rw [ha]
      simp
    simp only [List.map_cons, List.map_nil, List.sum_cons, List.sum_nil, residualDenom]
    rw [hsa, hta]
    simp
  · have hrpos : ¬ (HDie.totalWeight ⟨p.die.data.dropLast⟩ = 0) := by
      have hdlne : p.die.data.dropLast ≠ [] := by
        intro h
        rw [h] at hA
        exact hA rfl
      obtain ⟨q, hq⟩ := List.exists_mem_of_ne_nil _ hdlne
      have hqd : q ∈ p.die.data := (List.dropLast_sublist _).subset hq
      have hq2 : 0 < q.2 := hpos q hqd
      intro h0
      unfold HDie.totalWeight at h0
      rw [List.sum_eq_zero_iff] at h0
      have := h0 q.2 (List.mem_map.mpr ⟨q, hq, rfl⟩)
      omega
    rw [if_neg hA, if_neg hrpos]
    by_cases hC : p.countDice.all (fun c => decide (c = 0)) = true
    · rw [if_pos hC]
      simp only [List.map_cons, List.map_nil, List.sum_cons, List.sum_nil]
      have hres3 : residualDenom
          (some (poolBuild ⟨p.die.data.dropLast⟩ [] none (some []))) = 1 := rfl
      rw [hres3, hAT, List.map_replicate, List.prod_replicate]
      have hKne : p.die.data.map Prod.fst ≠ [] := by
        simpa using hne
      have hKdec : (p.die.data.map Prod.fst).dropLast ++
          [(p.die.data.map Prod.fst).getLast hKne] = p.die.data.map Prod.fst :=
        List.dropLast_append_getLast hKne
      have hsort2 : ((p.die.data.map Prod.fst).dropLast ++
          [(p.die.data.map Prod.fst).getLast hKne]).Pairwise (· < ·) := by
        rw [hKdec]
        exact hsort
      have hrel := (List.pairwise_append.mp hsort2).2.2
      have hkeyle : ∀ k ∈ p.die.data.map Prod.fst,
          k ≤ (p.die.data.map Prod.fst).getLast hKne := by
        intro k hk
        rw [← hKdec] at hk
        rcases List.mem_append.mp hk with h | h
        · exact le_of_lt (hrel k h _ (by simp))
        · rw [List.mem_singleton] at h
          rw [h]
      have hmaxeq : p.die.maxOutcome = (p.die.data.map Prod.fst).getLast hKne := by
        unfold HDie.maxOutcome
        rw [show (p.die.data.getLast?).map Prod.fst =
            (p.die.data.map Prod.fst).getLast? from (List.getLast?_map _ _).symm]
        rw [List.getLast?_eq_getLast _ hKne]
        rfl
      have hcount : List.countP (fun y => decide (y ≤ p.die.maxOutcome))
          (p.die.data.map Prod.fst) = (p.die.data.map Prod.fst).length := by
        rw [List.countP_eq_length]
        intro k hk
        simp only [decide_eq_true_eq]
        rw [hmaxeq]
        exact hkeyle k hk
      have hwle : p.die.weightLe p.die.maxOutcome = p.die.totalWeight := by
        unfold HDie.weightLe bisectRight
        rw [hcount, List.length_map]
        simp
      rw [hwle, hnpd]
      simp
    · rw [if_neg hC]
      have hspos : 0 < ((p.die.data.getLast?).map Prod.snd).getD 0 := by
        rw [hs]
        exact hpos _ (List.getLast_mem hne)
      rw [if_pos hspos]
      simp only [List.map_cons, List.sum_cons]
      have hres0 : residualDenom (some (poolBuild ⟨p.die.data.dropLast⟩ p.countDice none
          (some (p.maxOutcomesAT.take (p.numDice - numPossibleDice p) ++
            List.replicate (numPossibleDice p)
              (HDie.maxOutcome ⟨p.die.data.dropLast⟩))))) =
          HDie.totalWeight ⟨p.die.data.dropLast⟩ ^ p.countDice.length := rfl
      rw [hres0, iterPopLoop_residual_sum]
      rw [hnpd, one_mul]
      rw [sumAux_combRow]
      have htotal2 : p.die.totalWeight =
          ((p.die.data.getLast?).map Prod.snd).getD 0 +
            HDie.totalWeight ⟨p.die.data.dropLast⟩ := by
        rw [hs]
        show _ = _ + ((p.die.data.dropLast).map Prod.snd).sum
        rw [htotal]
        omega
      rw [htotal2]

/-- Witness for the amended C1 on the two-die pool over the die `{1: 3, 2: 5}`:
the residual-weighted branch sum is `9 + 30 + 25 = 64 = 8^2`. -/
theorem pool_pop_max_residual_conservation_witness :
    ((poolBuild ⟨[(1, 3), (2, 5)]⟩ [1, 1] none none).iterPopMax.map
        (fun b => b.2.2 * residualDenom b.1)).sum =
      (poolBuild ⟨[(1, 3), (2, 5)]⟩ [1, 1] none none).die.totalWeight ^
        numPossibleDice (poolBuild ⟨[(1, 3), (2, 5)]⟩ [1, 1] none none) :=
  pool_pop_max_residual_conservation (poolBuild ⟨[(1, 3), (2, 5)]⟩ [1, 1] none none)
    (by decide) (by decide) (by decide) (by decide)

/-! ### Denominator-policy lemmas (claim C3) -/

/-- Multiply every value of an outcome→weight dictionary by a constant. -/
def scaleData (c : Nat) (d : List (Int × Nat)) : List (Int × Nat) :=
  d.map (fun p => (p.1, c * p.2))

theorem dataAdd_scale (c : Nat) (d : List (Int × Nat)) (k : Int) (v : Nat) :
    dataAdd (scaleData c d) k (c * v) = scaleData c (dataAdd d k v) := by
  unfold dataAdd scaleData
  have hany : (d.map (fun p : Int × Nat => (p.1, c * p.2))).any (fun p => decide (p.1 = k)) =
      d.any (fun p => decide (p.1 = k)) := by
    rw [List.any_map]
    rfl
  rw [hany]
  split
  · rw [List.map_map, List.map_map]
    apply List.map_congr_left
    intro p _
    by_cases hp : p.1 = k <;> simp [hp, Nat.mul_add]
  · rw [List.map_append]
    rfl

theorem mergeInner_scale (c f : Nat) (rest : List (Int × Nat)) :
    ∀ data : List (Int × Nat),
      mergeInner (c * f) (scaleData c data) rest = scaleData c (mergeInner f data rest) := by
  induction rest with
  | nil => intro data; rfl
  | cons p t ih =>
    intro data
    unfold mergeInner
    rw [show p.2 * (c * f) = c * (p.2 * f) by ring, dataAdd_scale]
    exact ih (dataAdd data p.1 (p.2 * f))

theorem mergeOuter_scale (c : Nat) (pairs : List (List (Int × Nat) × Nat)) :
    ∀ data : List (Int × Nat),
      mergeOuter (scaleData c data) (pairs.map (fun sf => (sf.1, c * sf.2))) =
        scaleData c (mergeOuter data pairs) := by
  induction pairs with
  | nil => intro data; rfl
  | cons sf t ih =>
    intro data
    unfold mergeOuter
    rw [List.map_cons]
    show mergeOuter (mergeInner (c * sf.2) (scaleData c data) sf.1) _ = _
    rw [mergeInner_scale]
    exact ih (mergeInner sf.2 data sf.1)

/-- When every factor divides exactly, a scaled common multiplier scales the
whole merged dictionary. -/
theorem mergeWith_scale (c denom : Nat) (subdatas : List (List (Int × Nat)))
    (weights : List Nat)
    (hdvd : ∀ dw ∈ (subdatas.map subdataDenominator).zip weights,
      dw.1 ≠ 0 → dw.1 ∣ denom * dw.2) :
    mergeWith (c * denom) subdatas weights = scaleData c (mergeWith denom subdatas weights) := by
  show mergeOuter [] (subdatas.zip (((subdatas.map subdataDenominator).zip weights).map
      (fun dw => if dw.1 ≠ 0 then c * denom * dw.2 / dw.1 else 0))) =
    scaleData c (mergeOuter [] (subdatas.zip (((subdatas.map subdataDenominator).zip weights).map
      (fun dw => if dw.1 ≠ 0 then denom * dw.2 / dw.1 else 0))))
  have hfac : ((subdatas.map subdataDenominator).zip weights).map
        (fun dw => if dw.1 ≠ 0 then c * denom * dw.2 / dw.1 else 0) =
      (((subdatas.map subdataDenominator).zip weights).map
        (fun dw => if dw.1 ≠ 0 then denom * dw.2 / dw.1 else 0)).map (fun x => c * x) := by
    rw [List.map_map]
    apply List.map_congr_left
    intro dw hdw
    by_cases hd : dw.1 = 0
    · simp [hd]
    · have h1 : dw.1 ≠ 0 := hd
      show _ = c * if dw.1 ≠ 0 then denom * dw.2 / dw.1 else 0
      rw [if_pos h1, if_pos h1, Nat.mul_assoc, Nat.mul_div_assoc c (hdvd dw hdw hd)]
  rw [hfac]
  have hzip : subdatas.zip ((((subdatas.map subdataDenominator).zip weights).map
        (fun dw => if dw.1 ≠ 0 then denom * dw.2 / dw.1 else 0)).map (fun x => c * x)) =
      (subdatas.zip (((subdatas.map subdataDenominator).zip weights).map
        (fun dw => if dw.1 ≠ 0 then denom * dw.2 / dw.1 else 0))).map
        (fun sf => (sf.1, c * sf.2)) := by
    rw [List.zip_map_right]
    rfl
  rw [hzip]
  exact mergeOuter_scale c _ []

theorem mem_dvd_listLcm {a : Nat} {l : List Nat} (h : a ∈ l) : a ∣ listLcm l := by
  induction l with
  | nil => cases h
  | cons b t ih =>
    rcases List.mem_cons.mp h with h | h
    · subst h
      exact Nat.dvd_lcm_left _ _
    · exact dvd_trans (ih h) (Nat.dvd_lcm_right _ _)

theorem listLcm_dvd {l : List Nat} {m : Nat} (h : ∀ a ∈ l, a ∣ m) : listLcm l ∣ m := by
  induction l with
  | nil => exact one_dvd m
  | cons b t ih =>
    exact Nat.lcm_dvd (h b (by simp)) (ih fun a ha => h a (by simp [ha]))

theorem listLcm_pos {l : List Nat} (h : ∀ a ∈ l, 0 < a) : 0 < listLcm l := by
  induction l with
  | nil => exact Nat.one_pos
  | cons b t ih =>
    have hb := h b (by simp)
    have ht := ih fun a ha => h a (by simp [ha])
    exact Nat.pos_of_ne_zero (Nat.lcm_ne_zero (Nat.pos_iff_ne_zero.mp hb)
      (Nat.pos_iff_ne_zero.mp ht))

theorem listGcd_dvd_mem {v : Nat} {l : List Nat} (h : v ∈ l) : listGcd l ∣ v := by
  induction l with
  | nil => cases h
  | cons b t ih =>
    rcases List.mem_cons.mp h with h | h
    · subst h
      exact Nat.gcd_dvd_left _ _
    · exact dvd_trans (Nat.gcd_dvd_right _ _) (ih h)

theorem listGcd_eq_zero {l : List Nat} : listGcd l = 0 ↔ ∀ v ∈ l, v = 0 := by
  induction l with
  | nil => simp [listGcd]
  | cons b t ih =>
    show Nat.gcd b (listGcd t) = 0 ↔ _
    rw [Nat.gcd_eq_zero_iff, ih]
    constructor
    · rintro ⟨hb, ht⟩ v hv
      rcases List.mem_cons.mp hv with hv | hv
      · exact hv ▸ hb
      · exact ht v hv
    · intro h
      exact ⟨h b (by simp), fun v hv => h v (by simp [hv])⟩

theorem listGcd_mul (c : Nat) (l : List Nat) :
    listGcd (l.map (fun x => c * x)) = c * listGcd l := by
  induction l with
  | nil => simp [listGcd]
  | cons b t ih =>
    show Nat.gcd (c * b) (listGcd (t.map _)) = c * Nat.gcd b (listGcd t)
    rw [ih, Nat.gcd_mul_left]

theorem gcd_div_div {a b g : Nat} (ha : g ∣ a) (hb : g ∣ b) :
    Nat.gcd (a / g) (b / g) = Nat.gcd a b / g := by
  rcases Nat.eq_zero_or_pos g with hg | hg
  · subst hg
    simp at ha hb
    simp [ha, hb]
  · obtain ⟨a', rfl⟩ := ha
    obtain ⟨b', rfl⟩ := hb
    rw [Nat.mul_div_cancel_left a' hg, Nat.mul_div_cancel_left b' hg,
      Nat.gcd_mul_left, Nat.mul_div_cancel_left _ hg]

theorem dvd_listGcd {l : List Nat} {g : Nat} (h : ∀ v ∈ l, g ∣ v) : g ∣ listGcd l := by
  induction l with
  | nil => exact dvd_zero g
  | cons b t ih =>
    exact Nat.dvd_gcd (h b (by simp)) (ih fun v hv => h v (by simp [hv]))

theorem listGcd_div {l : List Nat} {g : Nat} (h : ∀ v ∈ l, g ∣ v) :
    listGcd (l.map (fun x => x / g)) = listGcd l / g := by
  induction l with
  | nil => simp [listGcd]
  | cons b t ih =>
    show Nat.gcd (b / g) (listGcd (t.map _)) = Nat.gcd b (listGcd t) / g
    rw [ih (fun v hv => h v (by simp [hv])),
      gcd_div_div (h b (by simp)) (dvd_listGcd (fun v hv => h v (by simp [hv])))]

theorem scaleData_snd (c : Nat) (d : List (Int × Nat)) :
    (scaleData c d).map Prod.snd = (d.map Prod.snd).map (fun x => c * x) := by
  unfold scaleData
  rw [List.map_map, List.map_map]
  rfl

theorem scaleData_of_all_zero {d : List (Int × Nat)} (h : ∀ p ∈ d, p.2 = 0) (c : Nat) :
    scaleData c d = d := by
  unfold scaleData
  have h1 : d.map (fun p => (p.1, c * p.2)) = d.map id :=
    List.map_congr_left (fun p hp => by
      obtain ⟨a, b⟩ := p
      have hb : b = 0 := h _ hp
      subst hb
      simp)
  rw [h1, List.map_id]

theorem normalizeGcd_scale (c : Nat) (hc : 0 < c) (data : List (Int × Nat)) :
    normalizeGcd (scaleData c data) = normalizeGcd data := by
  unfold normalizeGcd
  rw [scaleData_snd, listGcd_mul]
  set g := listGcd (data.map Prod.snd) with hg
  rcases Nat.eq_zero_or_pos g with hg0 | hgpos
  · have hall : ∀ p ∈ data, p.2 = 0 := by
      intro p hp
      exact listGcd_eq_zero.mp hg0 p.2 (List.mem_map.mpr ⟨p, hp, rfl⟩)
    rw [hg0, Nat.mul_zero, if_neg (by omega), if_neg (by omega)]
    exact scaleData_of_all_zero hall c
  · by_cases hg1 : g = 1
    · rw [hg1, Nat.mul_one]
      by_cases hc1 : c = 1
      · rw [hc1, if_neg (by omega), if_neg (by omega)]
        have h1 : data.map (fun p : Int × Nat => (p.1, 1 * p.2)) = data.map id :=
          List.map_congr_left (fun p _ => by simp)
        show scaleData 1 data = data
        unfold scaleData
        rw [h1, List.map_id]
      · have hc2 : 1 < c := by omega
        rw [if_pos hc2, if_neg (by omega)]
        unfold scaleData
        rw [List.map_map]
        have h1 : data.map ((fun p : Int × Nat => (p.1, p.2 / c)) ∘
            (fun p : Int × Nat => (p.1, c * p.2))) = data.map id :=
          List.map_congr_left (fun p _ => by
            simp [Nat.mul_div_cancel_left p.2 (by omega : 0 < c)])
        rw [h1, List.map_id]
    · have hg2 : 1 < g := by omega
      have hle : g ≤ c * g := by
        calc g = 1 * g := (Nat.one_mul g).symm
          _ ≤ c * g := Nat.mul_le_mul_right g hc
      rw [if_pos (by omega), if_pos hg2]
      unfold scaleData
      rw [List.map_map]
      apply List.map_congr_left
      intro p _
      show (p.1, c * p.2 / (c * g)) = (p.1, p.2 / g)
      rw [Nat.mul_div_mul_left p.2 g hc]

theorem normalizeGcd_idem (data : List (Int × Nat)) :
    normalizeGcd (normalizeGcd data) = normalizeGcd data := by
  by_cases h1 : 1 < listGcd (data.map Prod.snd)
  · have hinner : normalizeGcd data =
        data.map (fun p => (p.1, p.2 / listGcd (data.map Prod.snd))) := by
      unfold normalizeGcd
      rw [if_pos h1]
    rw [hinner]
    unfold normalizeGcd
    have hvals : (data.map (fun p => (p.1, p.2 / listGcd (data.map Prod.snd)))).map Prod.snd =
        (data.map Prod.snd).map (fun x => x / listGcd (data.map Prod.snd)) := by
      rw [List.map_map, List.map_map]
      rfl
    rw [hvals, listGcd_div (fun v hv => listGcd_dvd_mem hv),
      Nat.div_self (by omega), if_neg (by omega)]
  · have houter : normalizeGcd data = data := by
      unfold normalizeGcd
      rw [if_neg h1]
    rw [houter]
    exact houter

/-- Claim C3: the four denominator policies agree up to a common integer
scale factor — after dividing all weights by their overall gcd, `prod`,
`lcm`, `lcm_joint` and `reduce` produce identical outcome→weight mappings. -/
theorem merge_policies_agree_up_to_gcd (subdatas : List (List (Int × Nat)))
    (weights : List Nat) :
    normalizeGcd (merge_weights_prod subdatas weights) =
      normalizeGcd (merge_weights_lcm subdatas weights) ∧
    normalizeGcd (merge_weights_lcm subdatas weights) =
      normalizeGcd (merge_weights_lcm_joint subdatas weights) ∧
    normalizeGcd (merge_weights_lcm_joint subdatas weights) =
      normalizeGcd (merge_weights_reduce subdatas weights) := by
  have hprod : merge_weights_prod subdatas weights =
      mergeWith (((subdatas.map subdataDenominator).filter (fun d => decide (0 < d))).prod)
        subdatas weights := rfl
  have hlcm : merge_weights_lcm subdatas weights =
      mergeWith (listLcm ((subdatas.map subdataDenominator).filter (fun d => decide (0 < d))))
        subdatas weights := rfl
  have hjoint : merge_weights_lcm_joint subdatas weights =
      mergeWith (listLcm ((((subdatas.map subdataDenominator).zip weights).filter
          (fun dw => decide (0 < dw.1))).map (fun dw => dw.1 / Nat.gcd dw.1 dw.2)))
        subdatas weights := rfl
  set dens := subdatas.map subdataDenominator with hdensdef
  set Dp := (dens.filter (fun d => decide (0 < d))).prod with hDpdef
  set Dl := listLcm (dens.filter (fun d => decide (0 < d))) with hDldef
  set Dj := listLcm (((dens.zip weights).filter (fun dw => decide (0 < dw.1))).map
      (fun dw => dw.1 / Nat.gcd dw.1 dw.2)) with hDjdef
  have hmemDl : ∀ d ∈ dens, d ≠ 0 → d ∣ Dl := by
    intro d hd hne
    exact mem_dvd_listLcm (List.mem_filter.mpr ⟨hd, by simpa using Nat.pos_of_ne_zero hne⟩)
  have hdvdLcm : ∀ dw ∈ dens.zip weights, dw.1 ≠ 0 → dw.1 ∣ Dl * dw.2 := by
    intro dw hdw hne
    exact Dvd.dvd.mul_right (hmemDl dw.1 (List.of_mem_zip hdw).1 hne) dw.2
  have hDlDp : Dl ∣ Dp := listLcm_dvd (fun a ha => List.dvd_prod ha)
  have hDjDl : Dj ∣ Dl := by
    apply listLcm_dvd
    intro x hx
    rw [List.mem_map] at hx
    obtain ⟨dw, hdw, rfl⟩ := hx
    rw [List.mem_filter] at hdw
    obtain ⟨hdwz, hdwpos⟩ := hdw
    have hpos : 0 < dw.1 := by simpa using hdwpos
    exact dvd_trans (Nat.div_dvd_of_dvd (Nat.gcd_dvd_left _ _))
      (hmemDl dw.1 (List.of_mem_zip hdwz).1 (by omega))
  have hdvdJoint : ∀ dw ∈ dens.zip weights, dw.1 ≠ 0 → dw.1 ∣ Dj * dw.2 := by
    intro dw hdw hne
    have hpos : 0 < dw.1 := Nat.pos_of_ne_zero hne
    have hxDj : dw.1 / Nat.gcd dw.1 dw.2 ∣ Dj :=
      mem_dvd_listLcm (List.mem_map.mpr
        ⟨dw, List.mem_filter.mpr ⟨hdw, by simpa using hpos⟩, rfl⟩)
    have h3 : Nat.gcd dw.1 dw.2 * Dj ∣ Dj * dw.2 := by
      obtain ⟨w', hw'⟩ := Nat.gcd_dvd_right dw.1 dw.2
      refine ⟨w', ?_⟩
      conv_lhs => rw [hw']
      ring
    calc dw.1 = Nat.gcd dw.1 dw.2 * (dw.1 / Nat.gcd dw.1 dw.2) :=
          (Nat.mul_div_cancel' (Nat.gcd_dvd_left _ _)).symm
      _ ∣ Nat.gcd dw.1 dw.2 * Dj := mul_dvd_mul_left _ hxDj
      _ ∣ Dj * dw.2 := h3
  have hDp_pos : 0 < Dp :=
    List.prod_pos (fun a ha => by simpa using (List.mem_filter.mp ha).2)
  have hDl_pos : 0 < Dl :=
    listLcm_pos (fun a ha => by simpa using (List.mem_filter.mp ha).2)
  have hDj_pos : 0 < Dj := by
    apply listLcm_pos
    intro a ha
    rw [List.mem_map] at ha
    obtain ⟨dw, hdw, rfl⟩ := ha
    have hpos : 0 < dw.1 := by simpa using (List.mem_filter.mp hdw).2
    exact Nat.div_pos (Nat.le_of_dvd hpos (Nat.gcd_dvd_left _ _))
      (Nat.gcd_pos_of_pos_left _ hpos)
  have e1 : merge_weights_prod subdatas weights =
      scaleData (Dp / Dl) (merge_weights_lcm subdatas weights) := by
    rw [hprod, hlcm]
    conv_lhs => rw [show Dp = Dp / Dl * Dl from (Nat.div_mul_cancel hDlDp).symm]
    exact mergeWith_scale _ _ _ _ hdvdLcm
  have e2 : merge_weights_lcm subdatas weights =
      scaleData (Dl / Dj) (merge_weights_lcm_joint subdatas weights) := by
    rw [hlcm, hjoint]
    conv_lhs => rw [show Dl = Dl / Dj * Dj from (Nat.div_mul_cancel hDjDl).symm]
    exact mergeWith_scale _ _ _ _ hdvdJoint
  refine ⟨?_, ?_, ?_⟩
  · rw [e1, normalizeGcd_scale _ (Nat.div_pos (Nat.le_of_dvd hDp_pos hDlDp) hDl_pos)]
  · rw [e2, normalizeGcd_scale _ (Nat.div_pos (Nat.le_of_dvd hDl_pos hDjDl) hDj_pos)]
  · show _ = normalizeGcd (normalizeGcd (merge_weights_lcm_joint subdatas weights))
    exact (normalizeGcd_idem _).symm

/-- On a list whose keys are already strictly increasing, the deck expansion
pipeline (accumulate dups per outcome, then sort the items) is the identity. -/
theorem expand_create_args_sorted_id (l : List (Int × Nat))
    (hsort : l.Pairwise (fun p q => p.1 < q.1)) :
    expand_create_args (l.map Prod.fst) (l.map Prod.snd) = l := by
  unfold expand_create_args sortPairs
  rw [List.zip_map']
  have hid : l.map (fun p : Int × Nat => (p.1, p.2)) = l := by
    simp
  rw [hid]
  have hnodup : (l.map Prod.fst).Nodup :=
    (List.pairwise_map).mpr (hsort.imp fun h => ne_of_lt h)
  rw [foldl_dataAdd_of_nodup l [] hnodup (by simp), List.nil_append]
  exact List.Sorted.insertionSort_eq (hsort.imp fun h => Or.inl h)

/-- Claim C5: on a deck's current extreme outcome, `_pop_max` (symmetrically
`_pop_min`) yields exactly one branch per feasible count `k` from
`max(0, dups + hand_size - deck_size)` to `min(dups, hand_size)`, with
hypergeometric weight `C(dups, k)`, the popped outcome removed from the
remaining deck, and remaining hand size `hand_size - k`; each branch again
satisfies the constructor's `hand_size ≤ deck_size` check. -/
theorem deck_pop_extreme_hypergeometric (d : Deck)
    (hne : d.data ≠ [])
    (hsort : d.data.Pairwise (fun p q => p.1 < q.1))
    (_hh : d.hand_size ≤ d.deckSize) :
    (d.popMax d.maxOutcome =
      (List.range' (((d.data.getLast?).map Prod.snd).getD 0 + d.hand_size - d.deckSize)
          (min (((d.data.getLast?).map Prod.snd).getD 0) d.hand_size + 1 -
            (((d.data.getLast?).map Prod.snd).getD 0 + d.hand_size - d.deckSize))).map
        (fun k => (⟨d.data.dropLast, d.hand_size - k⟩, k,
          Nat.choose (((d.data.getLast?).map Prod.snd).getD 0) k))) ∧
    (d.popMin d.minOutcome =
      (List.range' (((d.data.head?).map Prod.snd).getD 0 + d.hand_size - d.deckSize)
          (min (((d.data.head?).map Prod.snd).getD 0) d.hand_size + 1 -
            (((d.data.head?).map Prod.snd).getD 0 + d.hand_size - d.deckSize))).map
        (fun k => (⟨d.data.drop 1, d.hand_size - k⟩, k,
          Nat.choose (((d.data.head?).map Prod.snd).getD 0) k))) ∧
    (∀ b ∈ d.popMax d.maxOutcome, b.1.hand_size ≤ b.1.deckSize) := by
  have hexpMax : expand_create_args ((d.data.map Prod.fst).dropLast)
      ((d.data.map Prod.snd).dropLast) = d.data.dropLast := by
    rw [← List.map_dropLast, ← List.map_dropLast]
    exact expand_create_args_sorted_id _ (hsort.sublist (List.dropLast_sublist _))
  have hexpMin : expand_create_args ((d.data.map Prod.fst).drop 1)
      ((d.data.map Prod.snd).drop 1) = d.data.drop 1 := by
    rw [← List.map_drop, ← List.map_drop]
    exact expand_create_args_sorted_id _ (hsort.sublist (List.drop_sublist _ _))
  have hmax : d.popMax d.maxOutcome =
      (List.range' (((d.data.getLast?).map Prod.snd).getD 0 + d.hand_size - d.deckSize)
          (min (((d.data.getLast?).map Prod.snd).getD 0) d.hand_size + 1 -
            (((d.data.getLast?).map Prod.snd).getD 0 + d.hand_size - d.deckSize))).map
        (fun k => (⟨d.data.dropLast, d.hand_size - k⟩, k,
          Nat.choose (((d.data.getLast?).map Prod.snd).getD 0) k)) := by
    unfold Deck.popMax
    rw [if_neg (by simp [hne])]
    rw [hexpMax]
  refine ⟨hmax, ?_, ?_⟩
  · unfold Deck.popMin
    rw [if_neg (by simp [hne])]
    rw [hexpMin]
  · intro b hb
    rw [hmax] at hb
    rw [List.mem_map] at hb
    obtain ⟨k, hk, hbk⟩ := hb
    rw [List.mem_range'] at hk
    obtain ⟨i, hi, hki⟩ := hk
    subst hbk
    have hlast : d.data.dropLast ++ [d.data.getLast hne] = d.data :=
      List.dropLast_append_getLast hne
    have hm : ((d.data.getLast?).map Prod.snd).getD 0 = (d.data.getLast hne).2 := by
      rw [List.getLast?_eq_getLast d.data hne]
      rfl
    have hsum : ((d.data.dropLast).map Prod.snd).sum + (d.data.getLast hne).2 =
        d.deckSize := by
      unfold Deck.deckSize
      conv_rhs => rw [← hlast]
      rw [List.map_append, List.sum_append]
      simp
    show d.hand_size - k ≤ ((d.data.dropLast).map Prod.snd).sum
    rw [hm] at hki hi
    omega

/-- Witness for C5 on the deck `{1: 1, 2: 3}` with hand size 3: popping the
max outcome 2 gives exactly the feasible counts 2 and 3. -/
theorem deck_pop_extreme_hypergeometric_witness :
    Deck.popMax ⟨[(1, 1), (2, 3)], 3⟩ 2 =
      [(⟨[(1, 1)], 1⟩, 2, 3), (⟨[(1, 1)], 0⟩, 3, 1)] :=
  ((deck_pop_extreme_hypergeometric ⟨[(1, 1), (2, 3)], 3⟩ (by decide)
      (by decide) (by decide)).1).trans (by decide)

/-- Claim C8, counterexample: `Pool(d6, min_outcomes=(1,), max_outcomes=(6,))`
provides both caps, yet constructs successfully — each cap is ineffective
(`max(min_outcomes)` is not above the die's min outcome, `min(max_outcomes)`
not below its max), so standard form drops both to `None` before the
exclusivity check. -/
theorem pool_both_caps_ok_counterexample :
    PoolFactory d6 none none (some [1]) (some [6]) =
      .ok ⟨d6, [1], none, none⟩ := rfl

/-- Claim C8, amended: with both `min_outcomes` and `max_outcomes` provided,
construction raises the `ValueError` precisely when both caps survive the
standard-form step (i.e. are still effective after clamping); consequently
at most one of the two is set on any successfully constructed pool. -/
theorem pool_caps_mutually_exclusive (die : HDie) (numDice : Option Nat)
    (countDice minOutcomes maxOutcomes : Option (List Int)) (ndR : Option Nat)
    (hres : resolveNumDice numDice countDice minOutcomes maxOutcomes = .ok ndR) :
    ((poolStandardForm die (ndR.getD 0) minOutcomes maxOutcomes).1.isSome = true →
     (poolStandardForm die (ndR.getD 0) minOutcomes maxOutcomes).2.isSome = true →
      PoolFactory die numDice countDice minOutcomes maxOutcomes =
        .error "A pool cannot limit both min_outcomes and max_outcomes.") ∧
    (∀ p, PoolFactory die numDice countDice minOutcomes maxOutcomes = .ok p →
      p.minOutcomes = none ∨ p.maxOutcomes = none) := by
  constructor
  · intro h1 h2
    unfold PoolFactory
    rw [hres]
    simp only [bind, Except.bind]
    rw [if_pos (by simp [h1, h2])]
  · intro p hp
    unfold PoolFactory at hp
    rw [hres] at hp
    simp only [bind, Except.bind] at hp
    by_cases hb : ((poolStandardForm die (ndR.getD 0) minOutcomes maxOutcomes).1.isSome &&
        (poolStandardForm die (ndR.getD 0) minOutcomes maxOutcomes).2.isSome) = true
    · rw [if_pos hb] at hp
      exact absurd hp (by simp)
    · rw [if_neg hb] at hp
      have : p.minOutcomes = (poolStandardForm die (ndR.getD 0) minOutcomes maxOutcomes).1 ∧
          p.maxOutcomes = (poolStandardForm die (ndR.getD 0) minOutcomes maxOutcomes).2 := by
        cases hp
        exact ⟨rfl, rfl⟩
      rcases this with ⟨e1, e2⟩
      rw [Bool.and_eq_true, not_and_or] at hb
      rcases hb with hb | hb
      · left
        rw [e1]
        exact Option.not_isSome_iff_eq_none.mp (by simpa using hb)
      · right
        rw [e2]
        exact Option.not_isSome_iff_eq_none.mp (by simpa using hb)

/-- Claim C4: an evaluator's result die depends only on the pool's structural
key tuple `(die key, count_dice, min_outcomes, max_outcomes)` — the tuple by
which `DicePool.__eq__`/`__hash__` compare pools and by which the
`_eval_internal` cache is keyed — so evaluating on structurally equal (but
not identical-object) pools returns equal dice. -/
theorem eval_respects_structural_key {S : Type} [DecidableEq S] (ev : EvalPool S)
    (p1 p2 : DicePool) (h : p1.keyTuple = p2.keyTuple) :
    ev.eval p1 = ev.eval p2 := by
  have hp : p1 = p2 := by
    cases p1 with
    | mk d1 c1 mo1 xo1 =>
      cases p2 with
      | mk d2 c2 mo2 xo2 =>
        cases d1
        cases d2
        simp only [DicePool.keyTuple, Prod.mk.injEq] at h
        obtain ⟨h1, h2, h3, h4⟩ := h
        subst h1
        subst h2
        subst h3
        subst h4
        rfl
  rw [hp]

/-- Witness for C4: two pools built through different factory calls (one with
an ineffective max-outcome cap) share a key tuple, and `SumPool` evaluates
them to the same die data. -/
theorem eval_respects_structural_key_witness :
    ((poolBuild d6 [1, 1] none (some [6, 6])).keyTuple =
      (poolBuild d6 [1, 1] none none).keyTuple) ∧
    sumPoolModel.eval (poolBuild d6 [1, 1] none (some [6, 6])) =
      sumPoolModel.eval (poolBuild d6 [1, 1] none none) :=
  ⟨by decide,
   eval_respects_structural_key sumPoolModel _ _ (by decide)⟩

/-- Claim C7: constructing a deck whose requested hand size exceeds the total
card count (the sum of the dups) fails immediately with the `ValueError`;
with hand size at most the total card count that error is not raised. -/
theorem deck_hand_size_check (outcomes : List Int) (dups : Option (List Int))
    (handSize : Nat)
    (hlen : ∀ l, dups = some l → l.length = outcomes.length)
    (hpos : ∀ l, dups = some l → ∀ x ∈ l, 0 ≤ x) :
    (((dups.getD (List.replicate outcomes.length 1)).map Int.toNat).sum < handSize →
      mkDeck outcomes dups handSize = .error "hand_size cannot exceed deck_size.") ∧
    (handSize ≤ ((dups.getD (List.replicate outcomes.length 1)).map Int.toNat).sum →
      ∃ d, mkDeck outcomes dups handSize = .ok d) := by
  have hsize : ∀ (l : List Int), l.length = outcomes.length →
      ((expand_create_args outcomes (l.map Int.toNat)).map Prod.snd).sum =
        (l.map Int.toNat).sum := by
    intro l hl
    exact expand_create_args_snd_sum outcomes (l.map Int.toNat) (by simp [hl])
  cases dups with
  | none =>
    have hrep : (List.replicate outcomes.length (1 : Int)).map Int.toNat =
        List.replicate outcomes.length 1 := by
      simp [List.map_replicate]
    have hanyneg : (List.replicate outcomes.length (1 : Int)).any
        (fun x => decide (x < 0)) = false := by
      rw [List.any_eq_false]
      intro x hx
      rw [List.eq_of_mem_replicate hx]
      decide
    constructor
    · intro hlt
      unfold mkDeck
      simp only [Option.getD_some, pure, Except.pure, bind, Except.bind]
      rw [if_neg (by rw [hanyneg]; exact Bool.false_ne_true)]
      rw [if_pos ?_]
      show ((expand_create_args outcomes _).map Prod.snd).sum < handSize
      rw [hsize (List.replicate outcomes.length 1) (by simp)]
      simpa using hlt
    · intro hle
      unfold mkDeck
      simp only [Option.getD_some, pure, Except.pure, bind, Except.bind]
      rw [if_neg (by rw [hanyneg]; exact Bool.false_ne_true)]
      rw [if_neg ?_]
      · exact ⟨_, rfl⟩
      · show ¬ ((expand_create_args outcomes _).map Prod.snd).sum < handSize
        rw [hsize (List.replicate outcomes.length 1) (by simp)]
        simpa using hle
  | some l =>
    have hl := hlen l rfl
    have hanyneg : l.any (fun x => decide (x < 0)) = false := by
      rw [List.any_eq_false]
      intro x hx
      simpa using hpos l rfl x hx
    constructor
    · intro hlt
      unfold mkDeck
      simp only [Option.getD_some, pure, Except.pure, bind, Except.bind]
      rw [if_neg (by simpa using hl)]
      rw [if_neg (by rw [hanyneg]; exact Bool.false_ne_true)]
      rw [if_pos ?_]
      show ((expand_create_args outcomes _).map Prod.snd).sum < handSize
      rw [hsize _ hl]
      simpa using hlt
    · intro hle
      unfold mkDeck
      simp only [Option.getD_some, pure, Except.pure, bind, Except.bind]
      rw [if_neg (by simpa using hl)]
      rw [if_neg (by rw [hanyneg]; exact Bool.false_ne_true)]
      rw [if_neg ?_]
      · exact ⟨_, rfl⟩
      · show ¬ ((expand_create_args outcomes _).map Prod.snd).sum < handSize
        rw [hsize _ hl]
        simpa using hle

/-- Witness for C7 on a four-card deck: hand size 5 raises, hand size 4 is
accepted. -/
theorem deck_hand_size_check_witness :
    mkDeck [1, 2, 3] (some [2, 1, 1]) 5 = .error "hand_size cannot exceed deck_size." ∧
    (∃ d, mkDeck [1, 2, 3] (some [2, 1, 1]) 4 = .ok d) :=
  ⟨(deck_hand_size_check [1, 2, 3] (some [2, 1, 1]) 5
      (by intro l hl; cases hl; rfl) (by intro l hl; cases hl; decide)).1 (by decide),
   (deck_hand_size_check [1, 2, 3] (some [2, 1, 1]) 4
      (by intro l hl; cases hl; rfl) (by intro l hl; cases hl; decide)).2 (by decide)⟩

/-- Witness for C8 at a concrete pool where both caps are effective. -/
theorem pool_caps_mutually_exclusive_witness :
    PoolFactory d6 none none (some [2]) (some [5]) =
      .error "A pool cannot limit both min_outcomes and max_outcomes." :=
  (pool_caps_mutually_exclusive d6 none none (some [2]) (some [5]) (some 1) rfl).1
    (by decide) (by decide)

end IcepoolSpec
